import Mathlib

/-!
Shallow embedding of the core logic of the BusinessI repository.

Pipeline A (src/BI_trabalho/BI.py): access-key extraction from decoded QR
text (`extract_access_key`, lines 62-91), the deduplicated append-only key
store (`load_existing_keys` lines 14-23, `save_to_csv` lines 31-60, the
duplicate check of `process_uploaded_image` lines 130-134 and of the camera
loop lines 237-241, the clear-all handler lines 303-308).

Pipeline B (src/powerBI.py): the load-time `-` placeholder normalization
(line 6) and the per-cell numeric conversion of the selected series
(line 25: remove `.` thousands separators, turn `,` into `.`, parse float).

Modelling conventions:
* Text is `List Char`.  Python's `str.strip` is modelled over the ASCII
  whitespace characters it removes (space, tab, newline, carriage return,
  vertical tab, form feed); non-ASCII Unicode whitespace is outside the
  modelled alphabet.  Python's regex class `\d` is modelled as the ASCII
  decimal digits `0`-`9` (non-ASCII Unicode decimal digits are outside the
  modelled alphabet).
* The backing CSV file is modelled structurally as an optional list of
  records (`none` = the file does not exist); CSV (de)serialization is the
  external collaborator of spec section 6 and is modelled at the record
  level.  The pandas read in `load_existing_keys` takes a `readOk` flag
  modelling its `try`/`except`: the `except` branch corresponds to an
  externally corrupted file, which the structural file model cannot
  represent, so in-session reloads use `readOk = true`.
* The `try`/`except` of `save_to_csv` is modelled by a `writeOk` flag: when
  the read-modify-write of lines 48-54 raises, control jumps to the handler
  at line 58 before line 55 runs, so the function returns `False` with the
  state untouched; when it completes, line 55 adds the stripped key to the
  in-memory set.
* `float` parsing (pandas `astype(float)`) is modelled exactly over `ℚ` for
  plain unsigned decimal numerals, the only shapes the data format
  produces; IEEE rounding is outside the model.
-/

/-- The ASCII whitespace characters removed by Python's `str.strip()`. -/
def isPySpace (c : Char) : Bool :=
  c == ' ' || c == '\t' || c == '\n' || c == '\r' || c == '\x0b' || c == '\x0c'

/-- Python's `s.strip()`: drop leading and trailing whitespace. -/
def pyStrip (s : List Char) : List Char :=
  ((s.dropWhile isPySpace).reverse.dropWhile isPySpace).reverse

/-- The leading run of decimal digits of a string (what a greedy `\d*`
matches at the current position). -/
def leadRun (s : List Char) : List Char := s.takeWhile Char.isDigit

/-- First match of the unanchored regex `\d{n}` (as in
`re.findall(r'\d{44}', qr_data)[0]`, BI.py line 71): the regex engine tries
each position left to right and succeeds as soon as `n` consecutive digit
characters start there, returning exactly those `n` characters. -/
def findExact : Nat → List Char → Option (List Char)
  | _, [] => none
  | n, c :: cs =>
    if n ≤ (leadRun (c :: cs)).length then some ((c :: cs).take n)
    else findExact n cs

/-- First match of the greedy regex `\d{n,}` (as in
`re.findall(r'\d{20,}', qr_data)[0]`, BI.py line 83): the leftmost position
with at least `n` consecutive digits, matching the whole digit run there. -/
def findMin : Nat → List Char → Option (List Char)
  | _, [] => none
  | n, c :: cs =>
    if n ≤ (leadRun (c :: cs)).length then some (leadRun (c :: cs))
    else findMin n cs

/-- Whether the string contains (at some position) a run of at least `n`
consecutive decimal digits. -/
def hasDigitRun : Nat → List Char → Bool
  | _, [] => false
  | n, c :: cs => n ≤ (leadRun (c :: cs)).length || hasDigitRun n cs

/-- BI.py lines 62-91, `extract_access_key`: reject empty / whitespace-only
input; then try, in order, the first `\d{44}` match, the first `\d{47}`
match, the first `\d{20,}` match; otherwise return the stripped text when
its length is at most 100, else nothing. -/
def extract_access_key (qr_data : List Char) : Option (List Char) :=
  if qr_data = [] ∨ (pyStrip qr_data).length = 0 then none
  else
    match findExact 44 qr_data with
    | some m => some m
    | none =>
      match findExact 47 qr_data with
      | some m => some m
      | none =>
        match findMin 20 qr_data with
        | some m => some m
        | none =>
          if (pyStrip qr_data).length ≤ 100 then some (pyStrip qr_data)
          else none

/-- One row of the backing file `access_keys.csv` (spec section 3,
written by `save_to_csv`, BI.py lines 42-45). -/
structure Record where
  access_key : List Char
  timestamp : List Char
deriving DecidableEq

/-- The per-session state: the backing file (`none` when it does not
exist) and the in-memory seen-set `st.session_state.access_keys`
(BI.py lines 26-27), modelled as a duplicate-free list. -/
structure StoreState where
  file : Option (List Record)
  seen : List (List Char)
deriving DecidableEq

/-- The records the backing file currently holds (empty when absent). -/
def recordsOf : Option (List Record) → List Record
  | some rs => rs
  | none => []

/-- The access_key column of the backing file, in file order. -/
def fileKeys (st : StoreState) : List (List Char) :=
  (recordsOf st.file).map Record.access_key

/-- BI.py lines 14-23, `load_existing_keys`: if the file exists, read it and
return the set of its `access_key` values; on a read error (`readOk =
false`, the `except` branch) report and return the empty set; if the file
does not exist, return the empty set. -/
def load_existing_keys (file : Option (List Record)) (readOk : Bool) :
    List (List Char) :=
  match file with
  | some rs => if readOk then (rs.map Record.access_key).dedup else []
  | none => []

/-- BI.py lines 31-60, `save_to_csv`: reject a key that is empty or
whitespace-only after stripping (returning `False`); otherwise read the
current records, append one new record holding the stripped key and the
timestamp, and rewrite the file in full.  `writeOk = false` models an
exception inside the `try` body (lines 48-54): control reaches the handler
at line 58 before line 55 runs, so `False` is returned and neither the file
model nor the seen-set changes.  On success line 55 adds the stripped key
to the seen-set and `True` is returned. -/
def save_to_csv (access_key ts : List Char) (writeOk : Bool)
    (st : StoreState) : Bool × StoreState :=
  if access_key = [] ∨ (pyStrip access_key).length = 0 then (false, st)
  else if writeOk then
    (true,
      { file := some (recordsOf st.file ++
          [{ access_key := pyStrip access_key, timestamp := ts }]),
        seen := st.seen.insert (pyStrip access_key) })
  else (false, st)

/-- Result classification of one guarded append (the spec's
`KeyStore.append`): `ok` when a new record was written, `alreadyExists`
for the non-saved duplicate branch, `err` when `save_to_csv` failed. -/
inductive AppendResult where
  | ok
  | alreadyExists
  | err
deriving DecidableEq

/-- The guarded append as the program composes it (BI.py lines 130-134 and
237-241): if the key is truthy and not in the seen-set, call `save_to_csv`;
otherwise take the non-saved duplicate branch with no write. -/
def append (key ts : List Char) (writeOk : Bool) (st : StoreState) :
    AppendResult × StoreState :=
  if key ≠ [] ∧ key ∉ st.seen then
    match save_to_csv key ts writeOk st with
    | (true, st1) => (AppendResult.ok, st1)
    | (false, st1) => (AppendResult.err, st1)
  else (AppendResult.alreadyExists, st)

/-- Outcome of handling one decoded symbol (spec section 4.3): saved, the
non-saved duplicate branch (whose shown key may be `none` when extraction
yielded nothing), or a silent save failure. -/
inductive ScanOutcome where
  | Saved (key : List Char)
  | Duplicate (key : Option (List Char))
  | SaveFailed (key : List Char)
deriving DecidableEq

/-- One decode event (BI.py lines 127-134, identically 234-241): extract an
access key from the decoded text; `None` falls into the duplicate-warning
branch untouched; otherwise the guarded append decides saved / duplicate /
failed. -/
def handleDecodedText (text ts : List Char) (writeOk : Bool)
    (st : StoreState) : ScanOutcome × StoreState :=
  match extract_access_key text with
  | none => (ScanOutcome.Duplicate none, st)
  | some key =>
    match append key ts writeOk st with
    | (AppendResult.ok, st1) => (ScanOutcome.Saved key, st1)
    | (AppendResult.err, st1) => (ScanOutcome.SaveFailed key, st1)
    | (AppendResult.alreadyExists, st1) => (ScanOutcome.Duplicate (some key), st1)

/-- BI.py lines 303-308, the clear-all handler: if the backing file exists,
delete it and reset the seen-set to empty; the handler body does nothing
when the file is absent (and the control itself is only rendered under the
existence check of line 287). -/
def clearOp (st : StoreState) : StoreState :=
  match st.file with
  | some _ => { file := none, seen := [] }
  | none => st

/-- A fresh session start over the same backing file (BI.py lines 26-27):
the seen-set is recomputed by `load_existing_keys`.  In-model files are
always well-formed records, so the read succeeds. -/
def reloadState (st : StoreState) : StoreState :=
  { file := st.file, seen := load_existing_keys st.file true }

/-- Record count of the backing file, recomputed from its contents
(`len(pd.read_csv(CSV_FILE))`, BI.py lines 161-162; 0 when absent). -/
def recordCount (file : Option (List Record)) : Nat :=
  (recordsOf file).length

/-- Number of records of the backing file whose access_key equals `k`. -/
def countKey (k : List Char) (file : Option (List Record)) : Nat :=
  (recordsOf file).countP (fun r => decide (r.access_key = k))

/-- The states the session can be in: the fresh store, then any sequence of
session restarts (reload of the seen-set from the file), decode events and
clears. -/
inductive Reachable : StoreState → Prop
  | init : Reachable { file := none, seen := [] }
  | reload (st : StoreState) : Reachable st → Reachable (reloadState st)
  | handle (st : StoreState) (text ts : List Char) (writeOk : Bool) :
      Reachable st → Reachable (handleDecodedText text ts writeOk st).2
  | clearAll (st : StoreState) : Reachable st → Reachable (clearOp st)

/-- powerBI.py line 6, `df.replace('-', '0')`: a cell exactly equal to the
placeholder `-` is normalized to `0` at load time. -/
def normalizeCell (s : List Char) : List Char :=
  if s = ['-'] then ['0'] else s

/-- powerBI.py line 25, `.str.replace('.', '')`: remove every thousands
separator from the cell text. -/
def removeDots (s : List Char) : List Char :=
  s.filter (fun c => !(c == '.'))

/-- powerBI.py line 25, `.str.replace(',', '.')`: turn the decimal comma
into a decimal point. -/
def commaToDot (s : List Char) : List Char :=
  s.map (fun c => if c = ',' then '.' else c)

/-- Numeric value of a digit string, most significant digit first. -/
def digitsVal (s : List Char) : Nat :=
  s.foldl (fun a c => 10 * a + (c.toNat - '0'.toNat)) 0

/-- The value of a plain unsigned decimal numeral (`astype(float)` on the
normalized cell text), exactly over `ℚ`: digits, optionally one point
followed by digits.  Anything else fails. -/
def parseDecimal (s : List Char) : Option ℚ :=
  match s.splitOn '.' with
  | [intPart] =>
    if intPart ≠ [] ∧ intPart.all Char.isDigit then
      some (digitsVal intPart)
    else none
  | [intPart, fracPart] =>
    if intPart ++ fracPart ≠ [] ∧ (intPart ++ fracPart).all Char.isDigit then
      some ((digitsVal (intPart ++ fracPart) : ℚ) / (10 : ℚ) ^ fracPart.length)
    else none
  | _ => none

/-- Projection of one (already load-normalized) cell to its numeric value
(powerBI.py line 25): strip the `.` separators, comma to dot, parse. -/
def projectCell (s : List Char) : Option ℚ :=
  parseDecimal (commaToDot (removeDots s))

lemma not_space_of_digit {c : Char} (h : c.isDigit = true) : isPySpace c = false := by
  cases hs : isPySpace c
  · rfl
  · exfalso
    unfold isPySpace at hs
    simp only [Bool.or_eq_true, beq_iff_eq] at hs
    rcases hs with ((((h1 | h1) | h1) | h1) | h1) | h1 <;> subst h1 <;>
      exact absurd h (by decide)

lemma dropWhile_eq_self_of_all {p : Char → Bool} {l : List Char}
    (h : ∀ c ∈ l, p c = false) : l.dropWhile p = l := by
  cases l with
  | nil => rfl
  | cons c cs => simp [List.dropWhile_cons, h c (by simp)]

lemma mem_dropWhile_of_not {p : Char → Bool} {c : Char} :
    ∀ {l : List Char}, c ∈ l → p c = false → c ∈ l.dropWhile p := by
  intro l
  induction l with
  | nil => intro hc _; exact absurd hc (List.not_mem_nil c)
  | cons a l ih =>
    intro hc hpc
    cases hp : p a with
    | false => simpa [List.dropWhile_cons, hp] using hc
    | true =>
      rw [List.dropWhile_cons, if_pos hp]
      rcases List.mem_cons.mp hc with rfl | hmem
      · rw [hp] at hpc; exact absurd hpc (by simp)
      · exact ih hmem hpc

lemma dropWhile_head_false {p : Char → Bool} :
    ∀ {l : List Char} {x : Char} {xs : List Char},
      l.dropWhile p = x :: xs → p x = false := by
  intro l
  induction l with
  | nil => intro x xs h; exact absurd h (by simp)
  | cons a l ih =>
    intro x xs h
    cases hp : p a with
    | true => rw [List.dropWhile_cons, if_pos hp] at h; exact ih h
    | false =>
      rw [List.dropWhile_cons, if_neg (by simp [hp])] at h
      obtain ⟨rfl, rfl⟩ := List.cons.inj h
      exact hp

lemma dropWhile_idem (p : Char → Bool) (l : List Char) :
    (l.dropWhile p).dropWhile p = l.dropWhile p := by
  cases h : l.dropWhile p with
  | nil => rfl
  | cons x xs =>
    rw [List.dropWhile_cons, if_neg (by simp [dropWhile_head_false h])]

lemma pyStrip_all_not_space {s : List Char}
    (h : ∀ c ∈ s, isPySpace c = false) : pyStrip s = s := by
  unfold pyStrip
  rw [dropWhile_eq_self_of_all h,
    dropWhile_eq_self_of_all (fun c hc => h c (List.mem_reverse.mp hc)),
    List.reverse_reverse]

lemma pyStrip_ne_nil_of_mem {s : List Char} {c : Char}
    (hc : c ∈ s) (hcs : isPySpace c = false) : pyStrip s ≠ [] := by
  have h1 : c ∈ s.dropWhile isPySpace := mem_dropWhile_of_not hc hcs
  have h2 : c ∈ (s.dropWhile isPySpace).reverse.dropWhile isPySpace :=
    mem_dropWhile_of_not (List.mem_reverse.mpr h1) hcs
  exact List.ne_nil_of_mem (List.mem_reverse.mpr h2)

lemma pyStrip_idem (s : List Char) : pyStrip (pyStrip s) = pyStrip s := by
  have hdecomp : s.dropWhile isPySpace =
      pyStrip s ++ ((s.dropWhile isPySpace).reverse.takeWhile isPySpace).reverse := by
    conv_lhs => rw [← (s.dropWhile isPySpace).reverse_reverse,
      ← List.takeWhile_append_dropWhile isPySpace (s.dropWhile isPySpace).reverse]
    rw [List.reverse_append]
    rfl
  have hstep1 : (pyStrip s).dropWhile isPySpace = pyStrip s := by
    cases ht : pyStrip s with
    | nil => rfl
    | cons y t' =>
      have hu : s.dropWhile isPySpace =
          y :: (t' ++ ((s.dropWhile isPySpace).reverse.takeWhile isPySpace).reverse) := by
        conv_lhs => rw [hdecomp]
        rw [ht, List.cons_append]
      have hy : isPySpace y = false := dropWhile_head_false hu
      simp [List.dropWhile_cons, hy]
  have hrev : (pyStrip s).reverse = (s.dropWhile isPySpace).reverse.dropWhile isPySpace := by
    unfold pyStrip
    rw [List.reverse_reverse]
  show (((pyStrip s).dropWhile isPySpace).reverse.dropWhile isPySpace).reverse = pyStrip s
  rw [hstep1, hrev, dropWhile_idem, ← hrev, List.reverse_reverse]

lemma hasDigitRun_anti {m n : Nat} (hnm : n ≤ m) :
    ∀ {s : List Char}, hasDigitRun n s = false → hasDigitRun m s = false := by
  intro s
  induction s with
  | nil => intro _; rfl
  | cons c cs ih =>
    intro h
    simp only [hasDigitRun, Bool.or_eq_false_iff, decide_eq_false_iff_not] at h ⊢
    exact ⟨fun hm => h.1 (le_trans hnm hm), ih h.2⟩

lemma findExact_eq_none {n : Nat} :
    ∀ {s : List Char}, hasDigitRun n s = false → findExact n s = none := by
  intro s
  induction s with
  | nil => intro _; rfl
  | cons c cs ih =>
    intro h
    simp only [hasDigitRun, Bool.or_eq_false_iff, decide_eq_false_iff_not] at h
    simp only [findExact, if_neg h.1]
    exact ih h.2

lemma findMin_eq_none {n : Nat} :
    ∀ {s : List Char}, hasDigitRun n s = false → findMin n s = none := by
  intro s
  induction s with
  | nil => intro _; rfl
  | cons c cs ih =>
    intro h
    simp only [hasDigitRun, Bool.or_eq_false_iff, decide_eq_false_iff_not] at h
    simp only [findMin, if_neg h.1]
    exact ih h.2

lemma length_takeWhile_le (p : Char → Bool) (l : List Char) :
    (l.takeWhile p).length ≤ l.length := by
  calc (l.takeWhile p).length
      ≤ (l.takeWhile p).length + (l.dropWhile p).length := Nat.le_add_right _ _
    _ = l.length := by rw [← List.length_append, List.takeWhile_append_dropWhile]

lemma take_eq_take_takeWhile {p : Char → Bool} {l : List Char} {n : Nat}
    (h : n ≤ (l.takeWhile p).length) : l.take n = (l.takeWhile p).take n := by
  conv_lhs => rw [← List.takeWhile_append_dropWhile p l]
  exact List.take_append_of_le_length h

lemma findExact_spec {n : Nat} :
    ∀ {s v : List Char}, findExact n s = some v →
      v.length = n ∧ ∀ c ∈ v, c.isDigit = true := by
  intro s
  induction s with
  | nil => intro v h; exact absurd h (by simp [findExact])
  | cons c cs ih =>
    intro v h
    by_cases hle : n ≤ (leadRun (c :: cs)).length
    · rw [findExact, if_pos hle] at h
      obtain rfl : (c :: cs).take n = v := by simpa using h
      constructor
      · rw [List.length_take]
        exact Nat.min_eq_left (le_trans hle (length_takeWhile_le _ _))
      · intro x hx
        rw [take_eq_take_takeWhile hle] at hx
        exact List.mem_takeWhile_imp (List.take_subset n _ hx)
    · rw [findExact, if_neg hle] at h
      exact ih h

lemma findMin_spec {n : Nat} :
    ∀ {s v : List Char}, findMin n s = some v →
      n ≤ v.length ∧ ∀ c ∈ v, c.isDigit = true := by
  intro s
  induction s with
  | nil => intro v h; exact absurd h (by simp [findMin])
  | cons c cs ih =>
    intro v h
    by_cases hle : n ≤ (leadRun (c :: cs)).length
    · rw [findMin, if_pos hle] at h
      obtain rfl : leadRun (c :: cs) = v := by simpa using h
      exact ⟨hle, fun x hx => List.mem_takeWhile_imp hx⟩
    · rw [findMin, if_neg hle] at h
      exact ih h

lemma findExact_append_notdigit {n : Nat} (hn : 0 < n) (a s : List Char)
    (h : ∀ c ∈ a, c.isDigit = false) : findExact n (a ++ s) = findExact n s := by
  induction a with
  | nil => rfl
  | cons c a' ih =>
    have hc : c.isDigit = false := h c (by simp)
    have hlead : leadRun (c :: (a' ++ s)) = [] := by
      simp [leadRun, List.takeWhile_cons, hc]
    show findExact n (c :: (a' ++ s)) = findExact n s
    rw [findExact, hlead]
    rw [if_neg (by simp; omega)]
    exact ih (fun x hx => h x (by simp [hx]))

lemma leadRun_append_digits :
    ∀ (d b : List Char), (∀ c ∈ d, c.isDigit = true) →
      (∀ c ∈ b, c.isDigit = false) → leadRun (d ++ b) = d
  | [], b, _, hb => by
    cases b with
    | nil => rfl
    | cons x b' => simp [leadRun, List.takeWhile_cons, hb x (by simp)]
  | y :: d', b, hd, hb => by
    have ih := leadRun_append_digits d' b (fun c hc => hd c (by simp [hc])) hb
    simp only [leadRun] at ih ⊢
    rw [List.cons_append, List.takeWhile_cons, if_pos (hd y (by simp)), ih]

lemma findExact_digits {n : Nat} (d b : List Char) (hn : 0 < n)
    (hnd : n ≤ d.length)
    (hd : ∀ c ∈ d, c.isDigit = true) (hb : ∀ c ∈ b, c.isDigit = false) :
    findExact n (d ++ b) = some (d.take n) := by
  cases d with
  | nil => simp only [List.length_nil] at hnd; omega
  | cons y d' =>
    have hlead : leadRun (y :: (d' ++ b)) = y :: d' := by
      have := leadRun_append_digits (y :: d') b hd hb
      rwa [List.cons_append] at this
    show findExact n (y :: (d' ++ b)) = some ((y :: d').take n)
    rw [findExact, hlead, if_pos hnd]
    congr 1
    rw [← List.cons_append]
    exact List.take_append_of_le_length hnd

lemma extract_guard_false {t : List Char} {c : Char}
    (hc : c ∈ t) (hcs : isPySpace c = false) :
    ¬(t = [] ∨ (pyStrip t).length = 0) := by
  rintro (rfl | hlen)
  · exact absurd hc (List.not_mem_nil c)
  · exact pyStrip_ne_nil_of_mem hc hcs (List.length_eq_zero.mp hlen)

lemma extract_some {t k : List Char} (h : extract_access_key t = some k) :
    k ≠ [] ∧ pyStrip k = k ∧
      ((20 ≤ k.length ∧ ∀ c ∈ k, c.isDigit = true) ∨ k = pyStrip t) := by
  unfold extract_access_key at h
  by_cases hg : t = [] ∨ (pyStrip t).length = 0
  · rw [if_pos hg] at h; exact absurd h (by simp)
  · rw [if_neg hg] at h
    push_neg at hg
    obtain ⟨ht, hlen⟩ := hg
    cases h44 : findExact 44 t with
    | some m =>
      simp only [h44] at h
      obtain ⟨hml, hmd⟩ := findExact_spec h44
      obtain rfl : m = k := by simpa using h
      refine ⟨?_, ?_, Or.inl ⟨by omega, hmd⟩⟩
      · intro hnil; rw [hnil] at hml; simp at hml
      · exact pyStrip_all_not_space (fun c hc => not_space_of_digit (hmd c hc))
    | none =>
      simp only [h44] at h
      cases h47 : findExact 47 t with
      | some m =>
        simp only [h47] at h
        obtain ⟨hml, hmd⟩ := findExact_spec h47
        obtain rfl : m = k := by simpa using h
        refine ⟨?_, ?_, Or.inl ⟨by omega, hmd⟩⟩
        · intro hnil; rw [hnil] at hml; simp at hml
        · exact pyStrip_all_not_space (fun c hc => not_space_of_digit (hmd c hc))
      | none =>
        simp only [h47] at h
        cases h20 : findMin 20 t with
        | some m =>
          simp only [h20] at h
          obtain ⟨hml, hmd⟩ := findMin_spec h20
          obtain rfl : m = k := by simpa using h
          refine ⟨?_, ?_, Or.inl ⟨hml, hmd⟩⟩
          · intro hnil; rw [hnil] at hml; simp at hml
          · exact pyStrip_all_not_space (fun c hc => not_space_of_digit (hmd c hc))
        | none =>
          simp only [h20] at h
          by_cases h100 : (pyStrip t).length ≤ 100
          · rw [if_pos h100] at h
            obtain rfl : pyStrip t = k := by simpa using h
            exact ⟨fun hnil => hlen (by rw [hnil]; rfl), pyStrip_idem t, Or.inr rfl⟩
          · rw [if_neg h100] at h
            exact absurd h (by simp)

lemma extract_digit_run (a d b : List Char) (hlen : 44 ≤ d.length)
    (hd : ∀ c ∈ d, c.isDigit = true) (ha : ∀ c ∈ a, c.isDigit = false)
    (hb : ∀ c ∈ b, c.isDigit = false) :
    extract_access_key (a ++ d ++ b) = some (d.take 44) := by
  have hdne : d ≠ [] := by intro hnil; rw [hnil] at hlen; simp at hlen
  obtain ⟨c0, d', rfl⟩ := List.exists_cons_of_ne_nil hdne
  have hc0 : c0 ∈ a ++ (c0 :: d') ++ b := by simp
  have hguard := extract_guard_false hc0 (not_space_of_digit (hd c0 (by simp)))
  have hfe : findExact 44 (a ++ (c0 :: d') ++ b) = some ((c0 :: d').take 44) := by
    rw [List.append_assoc, findExact_append_notdigit (by omega) a _ ha]
    exact findExact_digits _ _ (by omega) hlen hd hb
  unfold extract_access_key
  rw [if_neg hguard]
  simp only [hfe]

/-- Claim C1 (amended).  The regex search `re.findall(r'\d{44}', ...)` of
pattern 1 is unanchored, so a maximal run of exactly 45 consecutive decimal
digits IS matched by pattern 1, which returns the first 44 digits of the
run (not the full 45-digit run via pattern 3).  A maximal run of exactly 44
digits, with no other digits in the text, is returned by pattern 1 in
full. -/
theorem claim1_amended (a d45 d44 b : List Char)
    (h45 : d45.length = 45) (h44 : d44.length = 44)
    (hd45 : ∀ c ∈ d45, c.isDigit = true) (hd44 : ∀ c ∈ d44, c.isDigit = true)
    (ha : ∀ c ∈ a, c.isDigit = false) (hb : ∀ c ∈ b, c.isDigit = false) :
    extract_access_key (a ++ d45 ++ b) = some (d45.take 44) ∧
    extract_access_key (a ++ d44 ++ b) = some d44 := by
  constructor
  · exact extract_digit_run a d45 b (by omega) hd45 ha hb
  · rw [extract_digit_run a d44 b (by omega) hd44 ha hb, ← h44, List.take_length]

/-- Claim C1, counterexample to the claim as stated: on a text that is a
single maximal run of exactly 45 decimal digits, `extract_access_key`
returns the 44-digit value produced by pattern 1, not the full 45-digit
run. -/
theorem claim1_counterexample :
    extract_access_key (List.replicate 45 '1') = some (List.replicate 44 '1') ∧
    extract_access_key (List.replicate 45 '1') ≠ some (List.replicate 45 '1') := by
  decide

/-- Claim C1, witness: the amended statement instantiated at a concrete
45-digit run and a concrete 44-digit run embedded in non-digit text. -/
theorem claim1_witness :
    (List.replicate 45 '1').length = 45 ∧
    (List.replicate 44 '2').length = 44 ∧
    extract_access_key (['x'] ++ List.replicate 45 '1' ++ ['y']) =
      some ((List.replicate 45 '1').take 44) ∧
    extract_access_key (['x'] ++ List.replicate 44 '2' ++ ['y']) =
      some (List.replicate 44 '2') := by
  have h := claim1_amended ['x'] (List.replicate 45 '1') (List.replicate 44 '2')
    ['y'] (by decide) (by decide) (by decide) (by decide) (by decide) (by decide)
  exact ⟨by decide, by decide, h.1, h.2⟩

/-- Claim C5.  On text with no run of 20 or more consecutive decimal
digits: empty or whitespace-only input yields nothing; otherwise input
whose stripped form has length at most 100 yields the stripped text
unchanged; longer input yields nothing. -/
theorem claim5_no_long_run (s : List Char) (h : hasDigitRun 20 s = false) :
    (pyStrip s = [] → extract_access_key s = none) ∧
    ((pyStrip s).length ≤ 100 → pyStrip s ≠ [] →
      extract_access_key s = some (pyStrip s)) ∧
    (100 < (pyStrip s).length → extract_access_key s = none) := by
  have h44 : findExact 44 s = none :=
    findExact_eq_none (hasDigitRun_anti (by omega) h)
  have h47 : findExact 47 s = none :=
    findExact_eq_none (hasDigitRun_anti (by omega) h)
  have h20 : findMin 20 s = none := findMin_eq_none h
  refine ⟨?_, ?_, ?_⟩
  · intro hnil
    unfold extract_access_key
    rw [if_pos (Or.inr (by rw [hnil]; rfl))]
  · intro h100 hne
    unfold extract_access_key
    rw [if_neg ?_]
    · simp only [h44, h47, h20]
      rw [if_pos h100]
    · rintro (rfl | hlen)
      · exact hne rfl
      · exact hne (List.length_eq_zero.mp hlen)
  · intro h100
    unfold extract_access_key
    by_cases hg : s = [] ∨ (pyStrip s).length = 0
    · rw [if_pos hg]
    · rw [if_neg hg]
      simp only [h44, h47, h20]
      rw [if_neg (by omega)]

/-- Claim C5, witness: a short digit-free text is returned stripped. -/
theorem claim5_witness :
    hasDigitRun 20 [' ', 'a', 'b'] = false ∧
    (pyStrip [' ', 'a', 'b']).length ≤ 100 ∧
    pyStrip [' ', 'a', 'b'] ≠ [] ∧
    extract_access_key [' ', 'a', 'b'] = some (pyStrip [' ', 'a', 'b']) :=
  ⟨by decide, by decide, by decide,
    (claim5_no_long_run [' ', 'a', 'b'] (by decide)).2.1 (by decide) (by decide)⟩

/-- Claim C9.  When extraction yields nothing, the decode event takes the
non-saved duplicate branch with a `none` key and leaves the state (file and
seen-set) untouched: no append happens. -/
theorem claim9_extract_none_duplicate (text ts : List Char) (writeOk : Bool)
    (st : StoreState) (h : extract_access_key text = none) :
    handleDecodedText text ts writeOk st = (ScanOutcome.Duplicate none, st) := by
  unfold handleDecodedText
  rw [h]

/-- Claim C9, witness: a whitespace-only decoded text extracts to nothing
and is classified as the duplicate branch with no state change. -/
theorem claim9_witness :
    extract_access_key [' '] = none ∧
    handleDecodedText [' '] ['t'] true { file := none, seen := [] } =
      (ScanOutcome.Duplicate none, { file := none, seen := [] }) :=
  ⟨by decide,
    claim9_extract_none_duplicate [' '] ['t'] true { file := none, seen := [] }
      (by decide)⟩

/-- Claim C10.  Whenever extraction returns a value, that value is
non-empty and non-empty after stripping: it is either a run of at least 20
decimal digits or the stripped, non-whitespace input itself. -/
theorem claim10_extract_nonempty (t k : List Char)
    (h : extract_access_key t = some k) :
    k ≠ [] ∧ pyStrip k ≠ [] ∧
      ((20 ≤ k.length ∧ ∀ c ∈ k, c.isDigit = true) ∨ k = pyStrip t) := by
  obtain ⟨hne, hfix, hdis⟩ := extract_some h
  exact ⟨hne, by rw [hfix]; exact hne, hdis⟩

/-- Claim C10, witness: a one-letter text extracts to itself, which is
non-empty before and after stripping. -/
theorem claim10_witness :
    extract_access_key ['a'] = some ['a'] ∧
    (['a'] ≠ ([] : List Char) ∧ pyStrip ['a'] ≠ [] ∧
      ((20 ≤ (['a'] : List Char).length ∧
          ∀ c ∈ (['a'] : List Char), c.isDigit = true) ∨
        (['a'] : List Char) = pyStrip ['a'])) :=
  ⟨by decide, claim10_extract_nonempty ['a'] ['a'] (by decide)⟩

lemma save_to_csv_success {key : List Char} (ts : List Char) (st : StoreState)
    (hne : key ≠ []) (hstrip : (pyStrip key).length ≠ 0) :
    save_to_csv key ts true st =
      (true,
        { file := some (recordsOf st.file ++
            [{ access_key := pyStrip key, timestamp := ts }]),
          seen := st.seen.insert (pyStrip key) }) := by
  unfold save_to_csv
  rw [if_neg (by rintro (hc | hc); exacts [hne hc, hstrip hc]), if_pos rfl]

lemma save_to_csv_failWrite (key ts : List Char) (st : StoreState) :
    save_to_csv key ts false st = (false, st) := by
  unfold save_to_csv
  by_cases hg : key = [] ∨ (pyStrip key).length = 0
  · rw [if_pos hg]
  · rw [if_neg hg, if_neg (by simp)]

lemma append_ok_state {key : List Char} (ts : List Char) (st : StoreState)
    (hne : key ≠ []) (hnotin : key ∉ st.seen)
    (hstrip : (pyStrip key).length ≠ 0) :
    append key ts true st =
      (AppendResult.ok,
        { file := some (recordsOf st.file ++
            [{ access_key := pyStrip key, timestamp := ts }]),
          seen := st.seen.insert (pyStrip key) }) := by
  unfold append
  rw [if_pos ⟨hne, hnotin⟩, save_to_csv_success ts st hne hstrip]

lemma append_dup {key : List Char} (ts : List Char) (w : Bool) (st : StoreState)
    (hc : ¬(key ≠ [] ∧ key ∉ st.seen)) :
    append key ts w st = (AppendResult.alreadyExists, st) := by
  unfold append
  rw [if_neg hc]

lemma append_ok_inv {k ts : List Char} {w : Bool} {st : StoreState}
    (h : (append k ts w st).1 = AppendResult.ok) :
    k ≠ [] ∧ k ∉ st.seen ∧ (pyStrip k).length ≠ 0 ∧ w = true := by
  unfold append at h
  by_cases hc : k ≠ [] ∧ k ∉ st.seen
  · rw [if_pos hc] at h
    unfold save_to_csv at h
    by_cases hg : k = [] ∨ (pyStrip k).length = 0
    · rw [if_pos hg] at h
      simp at h
    · cases w with
      | false => rw [if_neg hg, if_neg (by simp)] at h; simp at h
      | true =>
        push_neg at hg
        exact ⟨hc.1, hc.2, hg.2, rfl⟩
  · rw [if_neg hc] at h
    simp at h

lemma fileKeys_extend (st : StoreState) (r : Record) (seen' : List (List Char)) :
    fileKeys { file := some (recordsOf st.file ++ [r]), seen := seen' } =
      fileKeys st ++ [r.access_key] := by
  simp [fileKeys, recordsOf]

lemma handle_state (text ts : List Char) (w : Bool) (st : StoreState) :
    (handleDecodedText text ts w st).2 = st ∨
    ∃ k, extract_access_key text = some k ∧ k ≠ [] ∧ pyStrip k = k ∧
      k ∉ st.seen ∧
      (handleDecodedText text ts w st).2 =
        { file := some (recordsOf st.file ++
            [{ access_key := k, timestamp := ts }]),
          seen := st.seen.insert k } := by
  cases hx : extract_access_key text with
  | none => left; simp [handleDecodedText, hx]
  | some k =>
    obtain ⟨hkne, hkfix, -⟩ := extract_some hx
    by_cases hc : k ≠ [] ∧ k ∉ st.seen
    · cases w with
      | false =>
        left
        have happ : append k ts false st = (AppendResult.err, st) := by
          unfold append
          rw [if_pos hc, save_to_csv_failWrite]
        simp [handleDecodedText, hx, happ]
      | true =>
        right
        have hstrip : (pyStrip k).length ≠ 0 := by
          rw [hkfix]
          exact fun hlen => hkne (List.length_eq_zero.mp hlen)
        refine ⟨k, rfl, hc.1, hkfix, hc.2, ?_⟩
        simp only [handleDecodedText, hx, append_ok_state ts st hc.1 hc.2 hstrip]
        rw [hkfix]
    · left
      simp [handleDecodedText, hx, append_dup ts w st hc]

lemma reachable_invariant {st : StoreState} (h : Reachable st) :
    (fileKeys st).Nodup ∧ (∀ k ∈ fileKeys st, k ∈ st.seen) ∧
      (st.file = none → st.seen = []) := by
  induction h with
  | init =>
    exact ⟨List.nodup_nil, by simp [fileKeys, recordsOf], fun _ => rfl⟩
  | reload st h ih =>
    obtain ⟨hnd, hsub, -⟩ := ih
    refine ⟨hnd, ?_, ?_⟩
    · intro k hk
      show k ∈ load_existing_keys st.file true
      cases hf : st.file with
      | none => simp [fileKeys, reloadState, hf, recordsOf] at hk
      | some rs =>
        show k ∈ (rs.map Record.access_key).dedup
        rw [List.mem_dedup]
        simpa [fileKeys, reloadState, hf, recordsOf] using hk
    · intro hf
      show load_existing_keys st.file true = []
      rw [show st.file = none from hf]
      rfl
  | handle st text ts w h ih =>
    rcases handle_state text ts w st with hst | ⟨k, hx, hkne, hkfix, hknotin, hst⟩
    · rw [hst]; exact ih
    · rw [hst]
      obtain ⟨hnd, hsub, -⟩ := ih
      refine ⟨?_, ?_, ?_⟩
      · rw [fileKeys_extend]
        rw [List.nodup_append]
        refine ⟨hnd, List.nodup_singleton _, ?_⟩
        intro x hx1 hx2
        rw [List.mem_singleton] at hx2
        subst hx2
        exact hknotin (hsub x hx1)
      · intro x hxk
        rw [fileKeys_extend] at hxk
        rcases List.mem_append.mp hxk with hold | hnew
        · exact List.mem_insert_iff.mpr (Or.inr (hsub x hold))
        · rw [List.mem_singleton] at hnew
          rw [hnew]
          show k ∈ List.insert k st.seen
          exact List.mem_insert_self k st.seen
      · intro hnone
        exact absurd hnone (by simp)
  | clearAll st h ih =>
    cases hf : st.file with
    | some rs =>
      have hcl : clearOp st = { file := none, seen := [] } := by
        unfold clearOp
        rw [hf]
      rw [hcl]
      refine ⟨List.nodup_nil, ?_, fun _ => rfl⟩
      intro k hk
      simp [fileKeys, recordsOf] at hk
    | none =>
      have hcl : clearOp st = st := by
        unfold clearOp
        rw [hf]
      rw [hcl]
      exact ih

/-- Claim C2 (amended).  `save_to_csv` strips the key before writing it and
before adding it to the seen-set, while the duplicate check compares the
unstripped key; the claim therefore holds for keys equal to their stripped
form (which every extractor output is): starting from a state that has not
seen `k` and whose file holds no record for `k`, the first append returns
ok, the second returns the non-saved AlreadyExists outcome without
changing the state, and the file then holds exactly one record whose
access_key is `k`. -/
theorem claim2_amended (k ts1 ts2 : List Char) (st : StoreState)
    (hne : k ≠ []) (htrim : pyStrip k = k) (hseen : k ∉ st.seen)
    (hcount : countKey k st.file = 0) :
    (append k ts1 true st).1 = AppendResult.ok ∧
    (append k ts2 true (append k ts1 true st).2).1 =
      AppendResult.alreadyExists ∧
    (append k ts2 true (append k ts1 true st).2).2 =
      (append k ts1 true st).2 ∧
    countKey k ((append k ts2 true (append k ts1 true st).2).2).file = 1 := by
  have hstrip : (pyStrip k).length ≠ 0 := by
    rw [htrim]
    exact fun hlen => hne (List.length_eq_zero.mp hlen)
  have h1 := append_ok_state ts1 st hne hseen hstrip
  have hmem : k ∈ st.seen.insert (pyStrip k) := by
    rw [htrim]
    exact List.mem_insert_self k st.seen
  have h2 : append k ts2 true (append k ts1 true st).2 =
      (AppendResult.alreadyExists, (append k ts1 true st).2) := by
    rw [h1]
    exact append_dup ts2 true _ (fun hcon => hcon.2 hmem)
  refine ⟨by rw [h1], by rw [h2], by rw [h2], ?_⟩
  have h3 : ((append k ts2 true (append k ts1 true st).2).2).file =
      some (recordsOf st.file ++
        [{ access_key := pyStrip k, timestamp := ts1 }]) := by
    rw [h2, h1]
  rw [h3, htrim]
  unfold countKey at hcount ⊢
  show List.countP (fun r : Record => decide (r.access_key = k))
      (recordsOf st.file ++ [{ access_key := k, timestamp := ts1 }]) = 1
  rw [List.countP_append, hcount]
  simp [List.countP_cons]

/-- Claim C2, counterexample to the claim as stated: for the non-empty key
consisting of a space followed by `1`, the duplicate check (which uses the
unstripped key) never fires, so the second append also returns ok, the
file ends with two records (both holding the stripped key `1`), and no
record's access_key equals the original key. -/
theorem claim2_counterexample :
    (append [' ', '1'] ['t'] true { file := none, seen := [] }).1 =
      AppendResult.ok ∧
    (append [' ', '1'] ['u'] true
      (append [' ', '1'] ['t'] true { file := none, seen := [] }).2).1 =
      AppendResult.ok ∧
    countKey [' ', '1']
      ((append [' ', '1'] ['u'] true
        (append [' ', '1'] ['t'] true { file := none, seen := [] }).2).2).file
      = 0 ∧
    recordCount
      ((append [' ', '1'] ['u'] true
        (append [' ', '1'] ['t'] true { file := none, seen := [] }).2).2).file
      = 2 := by
  decide

/-- Claim C2, witness: the amended statement instantiated at the trimmed
key `1` from the empty store. -/
theorem claim2_witness :
    countKey ['1'] (none : Option (List Record)) = 0 ∧
    (append ['1'] ['t'] true { file := none, seen := [] }).1 =
      AppendResult.ok ∧
    (append ['1'] ['u'] true
      (append ['1'] ['t'] true { file := none, seen := [] }).2).1 =
      AppendResult.alreadyExists ∧
    countKey ['1']
      ((append ['1'] ['u'] true
        (append ['1'] ['t'] true { file := none, seen := [] }).2).2).file
      = 1 := by
  have h := claim2_amended ['1'] ['t'] ['u'] { file := none, seen := [] }
    (by decide) (by decide) (by decide) (by decide)
  exact ⟨by decide, h.1, h.2.1, h.2.2.2⟩

/-- Claim C3.  When the file write raises, `save_to_csv` returns the error
result and leaves the whole state, in particular the in-memory seen-set,
untouched; the seen-set is extended with the (stripped) key exactly when
the file rewrite has completed successfully, in the same step that installs
the rewritten file. -/
theorem claim3_write_failure_atomic (key ts : List Char) (st : StoreState) :
    save_to_csv key ts false st = (false, st) ∧
    (pyStrip key ≠ [] →
      save_to_csv key ts true st =
        (true,
          { file := some (recordsOf st.file ++
              [{ access_key := pyStrip key, timestamp := ts }]),
            seen := st.seen.insert (pyStrip key) })) := by
  refine ⟨save_to_csv_failWrite key ts st, fun hs => ?_⟩
  refine save_to_csv_success ts st ?_ ?_
  · intro hnil
    exact hs (by rw [hnil]; rfl)
  · exact fun hlen => hs (List.length_eq_zero.mp hlen)

/-- Claim C3, witness: the failure and success cases instantiated at the
key `1` over the empty store. -/
theorem claim3_witness :
    pyStrip ['1'] ≠ [] ∧
    save_to_csv ['1'] ['t'] false { file := none, seen := [] } =
      (false, { file := none, seen := [] }) ∧
    save_to_csv ['1'] ['t'] true { file := none, seen := [] } =
      (true,
        { file := some (recordsOf (none : Option (List Record)) ++
            [{ access_key := pyStrip ['1'], timestamp := ['t'] }]),
          seen := ([] : List (List Char)).insert (pyStrip ['1']) }) :=
  ⟨by decide,
    (claim3_write_failure_atomic ['1'] ['t'] { file := none, seen := [] }).1,
    (claim3_write_failure_atomic ['1'] ['t'] { file := none, seen := [] }).2
      (by decide)⟩

/-- Claim C4.  The series projection of a cell removes the `.` thousands
separators and turns the `,` into a decimal point, so the cell `1.234,56`
projects to the number 1234.56; the placeholder cell `-` is normalized to
`0` at load time and projects to 0. -/
theorem claim4_numeric_parse :
    normalizeCell ['-'] = ['0'] ∧
    projectCell (normalizeCell ['-']) = some 0 ∧
    normalizeCell ['1', '.', '2', '3', '4', ',', '5', '6'] =
      ['1', '.', '2', '3', '4', ',', '5', '6'] ∧
    projectCell (normalizeCell ['1', '.', '2', '3', '4', ',', '5', '6']) =
      some ((123456 : ℚ) / 100) := by
  refine ⟨rfl, ?_, rfl, ?_⟩
  · show parseDecimal ['0'] = some 0
    have hsplit : (['0'] : List Char).splitOn '.' = [['0']] := by decide
    unfold parseDecimal
    rw [hsplit]
    simp [digitsVal]
  · show parseDecimal ['1', '2', '3', '4', '.', '5', '6'] =
      some ((123456 : ℚ) / 100)
    have hsplit : (['1', '2', '3', '4', '.', '5', '6'] : List Char).splitOn '.' =
      [['1', '2', '3', '4'], ['5', '6']] := by decide
    unfold parseDecimal
    rw [hsplit]
    have hdv : digitsVal (['1', '2', '3', '4'] ++ ['5', '6']) = 123456 := by
      decide
    simp only [hdv]
    simp
    norm_num

/-- Claim C6.  In every state the session can reach (startup load, then any
sequence of decode events, reloads and clears), the access_key values of
the persisted records are pairwise distinct: the seen-set membership check
guarding every append preserves this invariant. -/
theorem claim6_unique_persisted_keys (st : StoreState) (h : Reachable st) :
    (fileKeys st).Nodup :=
  (reachable_invariant h).1

/-- Claim C6, witness: the state reached by handling one decoded 44-digit
key from the fresh store has duplicate-free persisted keys. -/
theorem claim6_witness :
    (fileKeys
      (handleDecodedText (List.replicate 44 '3') ['t'] true
        { file := none, seen := [] }).2).Nodup :=
  claim6_unique_persisted_keys _
    (Reachable.handle { file := none, seen := [] } (List.replicate 44 '3')
      ['t'] true Reachable.init)

/-- Claim C7 (amended).  `save_to_csv` persists the stripped key, so after
a successful append of `k` a fresh load over the same backing file returns
a set containing the stripped key (hence `k` itself exactly when `k` equals
its stripped form, as every extractor output does). -/
theorem claim7_amended (k ts : List Char) (st : StoreState)
    (h : (append k ts true st).1 = AppendResult.ok) :
    pyStrip k ∈ load_existing_keys ((append k ts true st).2).file true := by
  obtain ⟨hne, hnotin, hstrip, -⟩ := append_ok_inv h
  rw [append_ok_state ts st hne hnotin hstrip]
  show pyStrip k ∈ (((recordsOf st.file ++
    [({ access_key := pyStrip k, timestamp := ts } : Record)]).map
      Record.access_key).dedup)
  rw [List.mem_dedup]
  simp

/-- Claim C7, counterexample to the claim as stated: appending the
non-empty key consisting of a space followed by `1` succeeds, but a fresh
load over the resulting file returns only the stripped key `1`, which the
original key is not a member of. -/
theorem claim7_counterexample :
    (append [' ', '1'] ['t'] true { file := none, seen := [] }).1 =
      AppendResult.ok ∧
    [' ', '1'] ∉ load_existing_keys
      ((append [' ', '1'] ['t'] true { file := none, seen := [] }).2).file
      true := by
  decide

/-- Claim C7, witness: the amended round trip at the trimmed key `1`. -/
theorem claim7_witness :
    (append ['1'] ['t'] true { file := none, seen := [] }).1 =
      AppendResult.ok ∧
    pyStrip ['1'] ∈ load_existing_keys
      ((append ['1'] ['t'] true { file := none, seen := [] }).2).file true :=
  ⟨by decide,
    claim7_amended ['1'] ['t'] { file := none, seen := [] } (by decide)⟩

/-- Claim C8.  From any state the session can be in, the clear operation
leaves no backing file and an empty seen-set (when the file exists it is
deleted and the set reset; when it is already absent the reachable-state
invariant gives an already-empty set), so a subsequent load returns the
empty set and the record count is 0. -/
theorem claim8_clear_resets (st : StoreState) (h : Reachable st) :
    (clearOp st).file = none ∧ (clearOp st).seen = [] ∧
    load_existing_keys (clearOp st).file true = [] ∧
    recordCount (clearOp st).file = 0 := by
  have hinv := reachable_invariant h
  cases hf : st.file with
  | some rs =>
    have hcl : clearOp st = { file := none, seen := [] } := by
      unfold clearOp
      rw [hf]
    rw [hcl]
    exact ⟨rfl, rfl, rfl, rfl⟩
  | none =>
    have hcl : clearOp st = st := by
      unfold clearOp
      rw [hf]
    rw [hcl, hf]
    exact ⟨rfl, hinv.2.2 hf, rfl, rfl⟩

/-- Claim C8, witness: clearing the state reached by saving one decoded
key deletes the file, empties the seen-set, and makes load and the record
count empty. -/
theorem claim8_witness :
    (clearOp (handleDecodedText ['a'] ['t'] true
      { file := none, seen := [] }).2).file = none ∧
    (clearOp (handleDecodedText ['a'] ['t'] true
      { file := none, seen := [] }).2).seen = [] ∧
    load_existing_keys (clearOp (handleDecodedText ['a'] ['t'] true
      { file := none, seen := [] }).2).file true = [] ∧
    recordCount (clearOp (handleDecodedText ['a'] ['t'] true
      { file := none, seen := [] }).2).file = 0 :=
  claim8_clear_resets _
    (Reachable.handle { file := none, seen := [] } ['a'] ['t'] true
      Reachable.init)
